import Mathlib

/-!
Verification of the 8-puzzle solver core (`src/board.rs` and `src/a_star.rs`).

The Rust core is shallowly embedded:
* `Board` wraps a function `Fin 3 → Fin 3 → Option Int`, mirroring the Rust
  field `b: [[Option<i64>; 3]; 3]` (i64 values are modelled as unbounded
  integers; all values occurring in a well-formed board are tiny).
* Scanning loops (`find_number`, `find_empty_cell`) become `List.find?` over
  the row-major position list, which returns the first match exactly as the
  Rust double loop does.
* A Rust `unwrap()` panic is modelled by `Option`/an explicit `panicked`
  outcome: a function that can panic returns `none` in exactly the situations
  where the Rust code would panic.
* The `BinaryHeap` frontier is modelled as a list from which `popMax` removes
  a maximal element with respect to the source's `Ord for State`.  Rust's
  `BinaryHeap` does not specify which of several `cmp`-equal maximal elements
  is returned; the model removes the first maximal element.  All theorems
  proved about the search are insensitive to this tie choice.
* The unbounded `while` loop of `search` is modelled with an explicit fuel
  counter `FUEL`; it is proved below that the loop always reaches one of the
  Rust loop's genuine exits long before the fuel runs out, so the `fuelOut`
  outcome is unreachable and the fueled function is a faithful rendering of
  the Rust loop.
-/

namespace EightPuzzle

/-- A cell coordinate of the 3×3 grid: (row, column). -/
abbrev Pos := Fin 3 × Fin 3

/-- The board of `src/board.rs`: a 3×3 grid of cells, each holding either a
tile label (`some n`) or the blank (`none`). -/
structure Board where
  b : Fin 3 → Fin 3 → Option Int

/-- Content of the cell at position `p`. -/
def Board.cell (self : Board) (p : Pos) : Option Int := self.b p.1 p.2

/-- All nine positions in row-major order: the iteration order of the Rust
loops `for r in 0..3 { for c in 0..3 { ... } }`. -/
def positions : List Pos :=
  [(0, 0), (0, 1), (0, 2), (1, 0), (1, 1), (1, 2), (2, 0), (2, 1), (2, 2)]

instance : DecidableEq Board := fun x y =>
  decidable_of_iff (∀ p ∈ positions, x.cell p = y.cell p)
    ⟨fun h => by
      cases x with
      | mk xb =>
        cases y with
        | mk yb =>
          congr
          funext i j
          exact h (i, j) (by fin_cases i <;> fin_cases j <;> simp [positions]),
     fun h p _ => by rw [h]⟩

/-- `Board::find_number`: scan the grid in row-major order and return the
first position whose cell holds `some number`; `none` if the number is
absent (the Rust comment says this is "guaranteed to find the number" for
well-formed boards). -/
def Board.find_number (self : Board) (number : Int) : Option Pos :=
  positions.find? fun p => decide (self.cell p = some number)

/-- `Board::find_empty_cell`: first position (row-major) whose cell is empty. -/
def Board.find_empty_cell (self : Board) : Option Pos :=
  positions.find? fun p => decide (self.cell p = none)

/-- The tile labels `1..=8` iterated by `Board::distance`. -/
def labels : List Int := [1, 2, 3, 4, 5, 6, 7, 8]

/-- Manhattan distance between two grid positions, as computed inside
`Board::distance`: `(r1 - r2).abs() + (c1 - c2).abs()` over `i64`. -/
def manhattan (p q : Pos) : Int :=
  |(p.1.val : Int) - (q.1.val : Int)| + |(p.2.val : Int) - (q.2.val : Int)|

/-- `Board::distance`: sum over labels 1–8 of the Manhattan distance between
the label's position in `self` and in `other_board`.  The Rust code calls
`unwrap()` on both lookups; a lookup failure panics, modelled by `none`. -/
def Board.distance (self other : Board) : Option Int :=
  labels.foldlM
    (fun total number =>
      match self.find_number number, other.find_number number with
      | some sp, some op => some (total + manhattan sp op)
      | _, _ => none)
    0

/-- `Board::copy_and_swap`: a new board with the contents of `src_pos` and
`dest_pos` exchanged and every other cell unchanged (the original board value
is immutable and untouched). -/
def Board.copy_and_swap (self : Board) (src_pos dest_pos : Pos) : Board :=
  ⟨fun i j =>
    if (i, j) = src_pos then self.cell dest_pos
    else if (i, j) = dest_pos then self.cell src_pos
    else self.b i j⟩

/-- The fixed neighbor-offset table of `Board::get_possible_next_states`:
up, left, right, down as (row-delta, col-delta). -/
def neighbors : List (Int × Int) := [(-1, 0), (0, -1), (0, 1), (1, 0)]

/-- `Board::get_possible_next_states`: locate the blank (panicking — `none` —
if there is none, as the Rust `unwrap()` does), then for each in-bounds
neighbor offset, in the fixed order of `neighbors`, produce the board with
the blank swapped into that neighbor cell.  Out-of-bounds offsets are
skipped (`continue`). -/
def Board.get_possible_next_states (self : Board) : Option (List Board) :=
  self.find_empty_cell.map fun e =>
    neighbors.filterMap fun d =>
      let new_r : Int := (e.1.val : Int) + d.1
      let new_c : Int := (e.2.val : Int) + d.2
      if h : 0 ≤ new_r ∧ new_r < 3 ∧ 0 ≤ new_c ∧ new_c < 3 then
        some (self.copy_and_swap e (⟨new_r.toNat, by omega⟩, ⟨new_c.toNat, by omega⟩))
      else none

/-- The goal configuration `FINISHED` of `src/a_star.rs`:
rows 1,2,3 / 4,5,6 / 7,8,blank. -/
def FINISHED : Board :=
  ⟨fun i j =>
    match i.val, j.val with
    | 0, 0 => some 1 | 0, 1 => some 2 | 0, 2 => some 3
    | 1, 0 => some 4 | 1, 1 => some 5 | 1, 2 => some 6
    | 2, 0 => some 7 | 2, 1 => some 8 | _, _ => none⟩

/-- Number of cells of `b` holding exactly the content `v`. -/
def cellCount (b : Board) (v : Option Int) : ℕ :=
  (Finset.univ.filter fun p : Pos => b.cell p = v).card

/-- A board is well-formed when it has exactly one blank and each tile label
1–8 exactly once (the precondition the spec's board invariant guarantees). -/
def WellFormed (b : Board) : Prop :=
  cellCount b none = 1 ∧ ∀ n ∈ labels, cellCount b (some n) = 1

instance (b : Board) : Decidable (WellFormed b) := by
  unfold WellFormed
  exact instDecidableAnd

/-! ## The search engine of `src/a_star.rs` -/

/-- A frontier node of `src/a_star.rs`: the board, the full path from the
start up to and including this board, the cost so far `g`, and the score
`f = g + h`. -/
structure State where
  board : Board
  path : List Board
  g : Int
  f : Int
deriving DecidableEq

/-- Comparison of two `i64` heuristic values as it happens inside
`Ord for State`.  In the Rust code the two compared values are the results of
`Board::distance`, which panics when a label is missing; the `none` branches
below are therefore never exercised by a run on well-formed boards (the only
boards any theorem below compares). -/
def cmpOptInt : Option Int → Option Int → Ordering
  | none, none => .eq
  | none, some _ => .lt
  | some _, none => .gt
  | some a, some b => compare a b

/-- `Ord for State`: `other.f.cmp(&self.f)` then, on ties,
`other.board.distance(&FINISHED).cmp(&self.board.distance(&FINISHED))` —
the reversed comparisons turn the max-heap into a min-priority queue on the
pair (f, heuristic distance to the goal). -/
def State.cmp (self other : State) : Ordering :=
  (compare other.f self.f).then
    (cmpOptInt (other.board.distance FINISHED) (self.board.distance FINISHED))

/-- One selection pass over the frontier: return a maximal element with
respect to `State.cmp` (the element `BinaryHeap::pop` returns) together with
the remaining elements.  Among several `cmp`-equal maximal elements the
first is taken; Rust leaves this tie unspecified, and no theorem below
depends on the choice. -/
def popMax1 (s : State) (rest : List State) : State × List State :=
  match rest with
  | [] => (s, [])
  | t :: ts =>
    if State.cmp s t = Ordering.lt then
      let p := popMax1 t ts
      (p.1, s :: p.2)
    else
      let p := popMax1 s ts
      (p.1, t :: p.2)

/-- `BinaryHeap::pop`: `none` on an empty frontier, otherwise a maximal
element and the rest. -/
def popMax : List State → Option (State × List State)
  | [] => none
  | s :: rest => some (popMax1 s rest)

/-- Outcome of `search`.  `found p` is `Some(path)`, `exhausted` is `None`
(frontier ran empty), `panicked` models a Rust panic from an `unwrap()` on a
malformed board, and `fuelOut` is the artefact of the fueled loop model —
proved unreachable below. -/
inductive SearchResult where
  | found (path : List Board)
  | exhausted
  | panicked
  | fuelOut
deriving DecidableEq

/-- Build the successor `State`s pushed by the expansion loop of `search`:
for each successor board in order, `g' = g + 1`, `h' = distance(successor,
goal)` (a panic — `none` — if the board is malformed), `f' = g' + h'`, and
the path extended by the successor. -/
def mkNextStates (current : State) : List Board → Option (List State)
  | [] => some []
  | next_board :: rest =>
    match next_board.distance FINISHED with
    | none => none
    | some h =>
      match mkNextStates current rest with
      | none => none
      | some states =>
        some (State.mk next_board (current.path ++ [next_board])
          (current.g + 1) (current.g + 1 + h) :: states)

/-- The `while !queue.is_empty()` loop of `search`, with an explicit fuel
counter (proved never to run out).  Per iteration: pop the best state; skip
it if its board is already visited; return its path if its board is at
distance 0 from the goal; otherwise mark the board visited and push all
successor states. -/
def loop : ℕ → List State → List Board → SearchResult
  | 0, _, _ => .fuelOut
  | fuel + 1, queue, visited =>
    match popMax queue with
    | none => .exhausted
    | some (current, rest) =>
      if current.board ∈ visited then loop fuel rest visited
      else
        match current.board.distance FINISHED with
        | none => .panicked
        | some d =>
          if d = 0 then .found current.path
          else
            match current.board.get_possible_next_states with
            | none => .panicked
            | some next_boards =>
              match mkNextStates current next_boards with
              | none => .panicked
              | some next_states =>
                loop fuel (rest ++ next_states) (current.board :: visited)

/-- Fuel for the loop model.  The loop is proved to take fewer than
`1 + 5 * 9 ^ 9` iterations on every input, so this constant is never
reached. -/
def FUEL : ℕ := 2000000000

/-- `a_star::search`: seed the frontier with the starting board (path =
`[start]`, `g = 0`, `f = h(start)` — whose computation panics on a malformed
board) and run the loop. -/
def search (starting_board : Board) : SearchResult :=
  match starting_board.distance FINISHED with
  | none => .panicked
  | some f => loop FUEL [State.mk starting_board [starting_board] 0 f] []

/-! ## Spec-level move relation and shortest move count -/

/-- A legal move in the spec's words: the blank exchanged with an
orthogonally adjacent tile. -/
def LegalMove (b b' : Board) : Prop :=
  ∃ e q : Pos, b.cell e = none ∧ manhattan e q = 1 ∧ b' = b.copy_and_swap e q

instance (b b' : Board) : Decidable (LegalMove b b') := by
  unfold LegalMove
  infer_instance

/-- `b'` is one of the boards generated from `b` by the code's successor
function. -/
def Step (b b' : Board) : Prop :=
  ∃ L, b.get_possible_next_states = some L ∧ b' ∈ L

/-- `n`-fold composition of a move relation. -/
def RelN (R : Board → Board → Prop) : ℕ → Board → Board → Prop
  | 0, a, b => a = b
  | n + 1, a, c => ∃ b, R a b ∧ RelN R n b c

/-- `b'` is reachable from `b` in exactly `n` code successor steps. -/
def StepN : ℕ → Board → Board → Prop := RelN Step

/-- `b'` is reachable from `b` in exactly `n` legal moves. -/
def MoveN : ℕ → Board → Board → Prop := RelN LegalMove

/-- Reachability by code successor steps. -/
def ReachableCode (a b : Board) : Prop := ∃ n, StepN n a b

/-- Reachability by legal moves. -/
def ReachableLegal (a b : Board) : Prop := ∃ n, MoveN n a b

/-- The successor list of `get_possible_next_states` once the blank position
`e` has been found: the body of the Rust `for neighbor in neighbors` loop. -/
def nextList (b : Board) (e : Pos) : List Board :=
  neighbors.filterMap fun d =>
    let new_r : Int := (e.1.val : Int) + d.1
    let new_c : Int := (e.2.val : Int) + d.2
    if h : 0 ≤ new_r ∧ new_r < 3 ∧ 0 ≤ new_c ∧ new_c < 3 then
      some (b.copy_and_swap e (⟨new_r.toNat, by omega⟩, ⟨new_c.toNat, by omega⟩))
    else none

/-- The position of label `n` as used through `unwrap()` in the Rust code:
defined for every board, meaningful when `find_number` succeeds. -/
def locate (b : Board) (n : Int) : Pos := (b.find_number n).getD (0, 0)

/-- Strict ordering on optional heuristic values, as compared by
`cmpOptInt`. -/
def optLt : Option Int → Option Int → Prop
  | none, none => False
  | none, some _ => True
  | some _, none => False
  | some a, some b => a < b

/-- The sort key realised by `Ord for State`: the pair `(f, h)`, compared
lexicographically, smaller keys popped first. -/
def key (s : State) : Int × Option Int := (s.f, s.board.distance FINISHED)

/-- Lexicographic strict order on sort keys. -/
def keyLt (a b : Int × Option Int) : Prop :=
  a.1 < b.1 ∨ (a.1 = b.1 ∧ optLt a.2 b.2)

/-- The starting board of the spec's concrete scenario 2: the goal board
with the third-column cells of (zero-indexed) rows 1 and 2 exchanged — the
blank swapped with the tile 6, one legal move from the goal. -/
def oneMoveBoard : Board :=
  ⟨fun i j =>
    match i.val, j.val with
    | 0, 0 => some 1 | 0, 1 => some 2 | 0, 2 => some 3
    | 1, 0 => some 4 | 1, 1 => some 5 | 1, 2 => none
    | 2, 0 => some 7 | 2, 1 => some 8 | _, _ => some 6⟩

/-- The multiset of cell contents of a board, as a finset. -/
def cellSet (b : Board) : Finset (Option Int) := (positions.map b.cell).toFinset

/-- All cells of `b` carry contents from `S`. -/
def cellsIn (S : Finset (Option Int)) (b : Board) : Prop := ∀ p : Pos, b.cell p ∈ S

/-- The finset of all boards whose cells are drawn from `S`. -/
def boardsOver (S : Finset (Option Int)) : Finset Board :=
  (Finset.univ : Finset (Fin 3 → Fin 3 → {x : Option Int // x ∈ S})).image
    fun f => Board.mk fun i j => (f i j).val

/-- Invariant of the search loop relating the frontier `Q` and the visited
list `V` to the starting board.  `x_inv` is the crossing-edge invariant: any
edge from an expanded board `u` to an unexpanded board `w` is covered by a
frontier entry for `w` whose `g` is at most the optimal cost of `u` plus
one.  `s_inv` seeds it: while the start is unexpanded the frontier holds its
cost-0 entry. -/
structure Inv (start : Board) (Q : List State) (V : List Board) : Prop where
  q_wf : ∀ s ∈ Q, WellFormed s.board
  q_path : ∀ s ∈ Q, s.path.head? = some start ∧ s.path.getLast? = some s.board ∧
    s.path.Chain' Step
  q_len : ∀ s ∈ Q, (s.path.length : Int) = s.g + 1
  q_f : ∀ s ∈ Q, ∃ hv : Int, s.board.distance FINISHED = some hv ∧ s.f = s.g + hv
  q_cells : ∀ s ∈ Q, cellsIn (cellSet start) s.board
  v_nodup : V.Nodup
  v_wf : ∀ v ∈ V, WellFormed v
  v_cells : ∀ v ∈ V, cellsIn (cellSet start) v
  v_not_goal : FINISHED ∉ V
  x_inv : ∀ u ∈ V, ∀ w, Step u w → w ∉ V →
    ∃ t ∈ Q, t.board = w ∧ t.g ≤ ((sInf {k | StepN k start u} : ℕ) : Int) + 1
  s_inv : start ∉ V → ∃ t ∈ Q, t.board = start ∧ t.g = 0


theorem mem_positions (p : Pos) : p ∈ positions := by
  rcases p with ⟨r, c⟩
  fin_cases r <;> fin_cases c <;> simp [positions]

theorem Board.ext_cell {x y : Board} (h : ∀ p : Pos, x.cell p = y.cell p) : x = y := by
  cases x with
  | mk xb =>
    cases y with
    | mk yb =>
      have : xb = yb := funext fun i => funext fun j => h (i, j)
      rw [this]

/-! ## Locating cells in well-formed boards -/

theorem cellCount_exists {b : Board} {v : Option Int} (h : cellCount b v = 1) :
    ∃ p, b.cell p = v := by
  obtain ⟨a, ha⟩ := Finset.card_eq_one.mp h
  refine ⟨a, ?_⟩
  have : a ∈ Finset.univ.filter fun p : Pos => b.cell p = v := by
    rw [ha]; exact Finset.mem_singleton_self a
  exact (Finset.mem_filter.mp this).2

theorem cellCount_unique {b : Board} {v : Option Int} (h : cellCount b v = 1)
    {p q : Pos} (hp : b.cell p = v) (hq : b.cell q = v) : p = q := by
  obtain ⟨a, ha⟩ := Finset.card_eq_one.mp h
  have hp' : p ∈ Finset.univ.filter fun r : Pos => b.cell r = v :=
    Finset.mem_filter.mpr ⟨Finset.mem_univ p, hp⟩
  have hq' : q ∈ Finset.univ.filter fun r : Pos => b.cell r = v :=
    Finset.mem_filter.mpr ⟨Finset.mem_univ q, hq⟩
  rw [ha, Finset.mem_singleton] at hp' hq'
  rw [hp', hq']

theorem find_cell_eq {b : Board} {v : Option Int} (h : cellCount b v = 1)
    {p : Pos} (hp : b.cell p = v) :
    positions.find? (fun q => decide (b.cell q = v)) = some p := by
  cases hfind : positions.find? (fun q => decide (b.cell q = v)) with
  | none =>
    rw [List.find?_eq_none] at hfind
    exact absurd (by simpa using hp) (hfind p (mem_positions p))
  | some q =>
    have hq : b.cell q = v := by simpa using List.find?_some hfind
    rw [cellCount_unique h hq hp]

theorem find_number_eq {b : Board} {n : Int} (h : cellCount b (some n) = 1)
    {p : Pos} (hp : b.cell p = some n) : b.find_number n = some p :=
  find_cell_eq h hp

theorem find_empty_cell_eq {b : Board} (h : cellCount b none = 1)
    {p : Pos} (hp : b.cell p = none) : b.find_empty_cell = some p :=
  find_cell_eq h hp

theorem find_number_cell {b : Board} {n : Int} {p : Pos}
    (h : b.find_number n = some p) : b.cell p = some n := by
  simpa using List.find?_some h

theorem find_empty_cell_cell {b : Board} {p : Pos}
    (h : b.find_empty_cell = some p) : b.cell p = none := by
  simpa using List.find?_some h

theorem WellFormed.find_number_isSome {b : Board} (hb : WellFormed b)
    {n : Int} (hn : n ∈ labels) : ∃ p, b.find_number n = some p ∧ b.cell p = some n := by
  obtain ⟨p, hp⟩ := cellCount_exists (hb.2 n hn)
  exact ⟨p, find_number_eq (hb.2 n hn) hp, hp⟩

theorem WellFormed.find_empty_isSome {b : Board} (hb : WellFormed b) :
    ∃ p, b.find_empty_cell = some p ∧ b.cell p = none := by
  obtain ⟨p, hp⟩ := cellCount_exists hb.1
  exact ⟨p, find_empty_cell_eq hb.1 hp, hp⟩

/-! ## The swap operation -/

theorem cell_copy_and_swap (b : Board) (x y p : Pos) :
    (b.copy_and_swap x y).cell p = b.cell (Equiv.swap x y p) := by
  rcases p with ⟨i, j⟩
  rw [Equiv.swap_apply_def]
  by_cases h1 : ((i, j) : Pos) = x
  · simp [Board.copy_and_swap, Board.cell, h1]
  · by_cases h2 : ((i, j) : Pos) = y
    · simp only [Board.copy_and_swap, Board.cell]
      simp only [if_neg h1, if_pos h2]
    · simp [Board.copy_and_swap, Board.cell, h1, h2]

theorem cellCount_copy_and_swap (b : Board) (x y : Pos) (v : Option Int) :
    cellCount (b.copy_and_swap x y) v = cellCount b v := by
  unfold cellCount
  refine Finset.card_equiv (Equiv.swap x y) fun p => ?_
  simp [cell_copy_and_swap]

theorem WellFormed.copy_and_swap {b : Board} (hb : WellFormed b) (x y : Pos) :
    WellFormed (b.copy_and_swap x y) := by
  refine ⟨?_, fun n hn => ?_⟩
  · rw [cellCount_copy_and_swap]; exact hb.1
  · rw [cellCount_copy_and_swap]; exact hb.2 n hn

/-- In a well-formed board every cell is either the blank or holds one of the
labels 1–8: the counts (one blank, eight labels, nine cells) leave no room
for any other content. -/
theorem WellFormed.cell_cases {b : Board} (hb : WellFormed b) (p : Pos) :
    b.cell p = none ∨ ∃ n ∈ labels, b.cell p = some n := by
  by_contra hcon
  push_neg at hcon
  obtain ⟨h0, hlab⟩ := hcon
  -- the nine per-value cells cover all nine positions, yet `p` is uncovered
  set vals : Finset (Option Int) := insert none (labels.toFinset.image some) with hvals
  have hdisj : ∀ v₁ ∈ vals, ∀ v₂ ∈ vals, v₁ ≠ v₂ →
      Disjoint (Finset.univ.filter fun q : Pos => b.cell q = v₁)
        (Finset.univ.filter fun q : Pos => b.cell q = v₂) := by
    intro v₁ _ v₂ _ hne
    rw [Finset.disjoint_left]
    intro q hq1 hq2
    rw [Finset.mem_filter] at hq1 hq2
    exact hne (hq1.2.symm.trans hq2.2)
  have hsum : (vals.biUnion fun v => Finset.univ.filter fun q : Pos => b.cell q = v).card = 9 := by
    rw [Finset.card_biUnion hdisj]
    have hnone : none ∉ labels.toFinset.image some := by simp
    rw [hvals, Finset.sum_insert hnone]
    have himg : ∑ v ∈ labels.toFinset.image some,
        (Finset.univ.filter fun q : Pos => b.cell q = v).card
        = ∑ n ∈ labels.toFinset, (Finset.univ.filter fun q : Pos => b.cell q = some n).card := by
      refine Finset.sum_image ?_
      intro n₁ _ n₂ _ h
      exact Option.some_injective _ h
    rw [himg]
    have hones : ∑ n ∈ labels.toFinset, (Finset.univ.filter fun q : Pos => b.cell q = some n).card
        = ∑ n ∈ labels.toFinset, 1 := by
      refine Finset.sum_congr rfl fun n hn => ?_
      exact hb.2 n (List.mem_toFinset.mp hn)
    rw [hones, Finset.sum_const, smul_eq_mul, mul_one]
    have h8 : labels.toFinset.card = 8 := by decide
    have h1 : cellCount b none = 1 := hb.1
    unfold cellCount at h1
    omega
  have hcard : (Finset.univ : Finset Pos).card = 9 := by decide
  have huniv : (vals.biUnion fun v => Finset.univ.filter fun q : Pos => b.cell q = v)
      = Finset.univ := by
    apply Finset.eq_univ_of_card
    rw [hsum]
    have : Fintype.card Pos = 9 := by decide
    rw [this]
  have hp : p ∈ vals.biUnion fun v => Finset.univ.filter fun q : Pos => b.cell q = v := by
    rw [huniv]; exact Finset.mem_univ p
  rw [Finset.mem_biUnion] at hp
  obtain ⟨v, hv, hpv⟩ := hp
  have hcell : b.cell p = v := (Finset.mem_filter.mp hpv).2
  rw [hvals, Finset.mem_insert] at hv
  rcases hv with rfl | hv
  · exact h0 hcell
  · rw [Finset.mem_image] at hv
    obtain ⟨n, hn, rfl⟩ := hv
    exact hlab n (List.mem_toFinset.mp hn) hcell

/-! ## Successor generation -/

theorem get_possible_next_states_eq (b : Board) :
    b.get_possible_next_states = b.find_empty_cell.map (nextList b) := rfl

theorem mem_nextList {b : Board} {e : Pos} {b' : Board} :
    b' ∈ nextList b e ↔ ∃ q : Pos, manhattan e q = 1 ∧ b' = b.copy_and_swap e q := by
  constructor
  · intro h
    rw [nextList, List.mem_filterMap] at h
    obtain ⟨d, hd, hf⟩ := h
    by_cases hin : 0 ≤ (e.1.val : Int) + d.1 ∧ (e.1.val : Int) + d.1 < 3 ∧
        0 ≤ (e.2.val : Int) + d.2 ∧ (e.2.val : Int) + d.2 < 3
    · rw [dif_pos hin] at hf
      refine ⟨(⟨((e.1.val : Int) + d.1).toNat, by omega⟩, ⟨((e.2.val : Int) + d.2).toNat, by omega⟩),
        ?_, (Option.some_injective _ hf).symm⟩
      have hd4 : d = (-1, 0) ∨ d = (0, -1) ∨ d = (0, 1) ∨ d = (1, 0) := by
        simpa [neighbors] using hd
      have he1 : (e.1.val : ℕ) < 3 := e.1.isLt
      have he2 : (e.2.val : ℕ) < 3 := e.2.isLt
      rcases hd4 with rfl | rfl | rfl | rfl <;>
        · simp only [manhattan]
          rw [abs_sub_comm, abs_sub_comm ((e.2.val : Int)) _]
          rcases hin with ⟨a, b, c, d⟩
          rw [Int.toNat_of_nonneg a, Int.toNat_of_nonneg c]
          simp [abs]
    · rw [dif_neg hin] at hf
      exact absurd hf (by simp)
  · rintro ⟨q, hq, rfl⟩
    rw [nextList, List.mem_filterMap]
    have he1 : (e.1.val : ℕ) < 3 := e.1.isLt
    have he2 : (e.2.val : ℕ) < 3 := e.2.isLt
    have hq1 : (q.1.val : ℕ) < 3 := q.1.isLt
    have hq2 : (q.2.val : ℕ) < 3 := q.2.isLt
    have hcases : ((q.1.val : Int) = e.1.val + 1 ∧ (q.2.val : Int) = e.2.val) ∨
        ((q.1.val : Int) = e.1.val - 1 ∧ (q.2.val : Int) = e.2.val) ∨
        ((q.2.val : Int) = e.2.val + 1 ∧ (q.1.val : Int) = e.1.val) ∨
        ((q.2.val : Int) = e.2.val - 1 ∧ (q.1.val : Int) = e.1.val) := by
      rw [manhattan] at hq
      rcases abs_cases ((e.1.val : Int) - q.1.val) with ⟨h1, _⟩ | ⟨h1, _⟩ <;>
        rcases abs_cases ((e.2.val : Int) - q.2.val) with ⟨h2, _⟩ | ⟨h2, _⟩ <;>
        omega
    have hfin : ∀ d : Int × Int, d ∈ neighbors →
        ((q.1.val : Int) = e.1.val + d.1 ∧ (q.2.val : Int) = e.2.val + d.2) →
        ∃ d' ∈ neighbors, (fun d : Int × Int =>
          if h : 0 ≤ (e.1.val : Int) + d.1 ∧ (e.1.val : Int) + d.1 < 3 ∧
              0 ≤ (e.2.val : Int) + d.2 ∧ (e.2.val : Int) + d.2 < 3 then
            some (b.copy_and_swap e
              (⟨((e.1.val : Int) + d.1).toNat, by omega⟩, ⟨((e.2.val : Int) + d.2).toNat, by omega⟩))
          else none) d' = some (b.copy_and_swap e q) := by
      intro d hd he
      refine ⟨d, hd, ?_⟩
      have hin : 0 ≤ (e.1.val : Int) + d.1 ∧ (e.1.val : Int) + d.1 < 3 ∧
          0 ≤ (e.2.val : Int) + d.2 ∧ (e.2.val : Int) + d.2 < 3 := by omega
      simp only [dif_pos hin]
      have : ((⟨((e.1.val : Int) + d.1).toNat, by omega⟩, ⟨((e.2.val : Int) + d.2).toNat, by omega⟩) : Pos)
          = q := by
        have ht1 : (((e.1.val : Int) + d.1).toNat : ℕ) = q.1.val := by omega
        have ht2 : (((e.2.val : Int) + d.2).toNat : ℕ) = q.2.val := by omega
        exact Prod.ext (Fin.ext ht1) (Fin.ext ht2)
      rw [this]
    rcases hcases with ⟨h1, h2⟩ | ⟨h1, h2⟩ | ⟨h1, h2⟩ | ⟨h1, h2⟩
    · exact hfin (1, 0) (by simp [neighbors]) (by constructor <;> omega)
    · exact hfin (-1, 0) (by simp [neighbors]) (by constructor <;> omega)
    · exact hfin (0, 1) (by simp [neighbors]) (by constructor <;> omega)
    · exact hfin (0, -1) (by simp [neighbors]) (by constructor <;> omega)

theorem length_filterMap_dite {α β : Type} (C : α → Prop) [DecidablePred C]
    (G : (a : α) → C a → β) :
    ∀ l : List α, (l.filterMap fun a => if h : C a then some (G a h) else none).length
      = l.countP fun a => decide (C a)
  | [] => rfl
  | a :: l => by
    by_cases h : C a
    · simp [List.filterMap_cons, dif_pos h, List.countP_cons, h, length_filterMap_dite C G l]
    · simp [List.filterMap_cons, dif_neg h, List.countP_cons, h, length_filterMap_dite C G l]

theorem nextList_length (b : Board) (e : Pos) :
    2 ≤ (nextList b e).length ∧ (nextList b e).length ≤ 4 := by
  have hlen : (nextList b e).length = neighbors.countP fun d =>
      decide (0 ≤ (e.1.val : Int) + d.1 ∧ (e.1.val : Int) + d.1 < 3 ∧
        0 ≤ (e.2.val : Int) + d.2 ∧ (e.2.val : Int) + d.2 < 3) := by
    simp only [nextList]
    exact length_filterMap_dite _ _ neighbors
  rw [hlen]
  rcases e with ⟨i, j⟩
  fin_cases i <;> fin_cases j <;> exact ⟨by decide, by decide⟩

theorem step_iff_legalMove {b b' : Board} (hb : WellFormed b) :
    Step b b' ↔ LegalMove b b' := by
  constructor
  · rintro ⟨L, hL, hmem⟩
    rw [get_possible_next_states_eq] at hL
    obtain ⟨e, he, hcell⟩ := hb.find_empty_isSome
    rw [he, Option.map_some'] at hL
    obtain rfl : nextList b e = L := Option.some_injective _ hL
    obtain ⟨q, hq, rfl⟩ := mem_nextList.mp hmem
    exact ⟨e, q, hcell, hq, rfl⟩
  · rintro ⟨e, q, hcell, hq, rfl⟩
    have he := find_empty_cell_eq hb.1 hcell
    refine ⟨nextList b e, ?_, ?_⟩
    · rw [get_possible_next_states_eq, he, Option.map_some']
    · exact mem_nextList.mpr ⟨q, hq, rfl⟩

theorem step_is_swap {b b' : Board} (h : Step b b') :
    ∃ x y : Pos, b' = b.copy_and_swap x y := by
  rcases h with ⟨L, hL, hmem⟩
  rw [get_possible_next_states_eq] at hL
  cases hfe : b.find_empty_cell with
  | none => rw [hfe] at hL; exact absurd hL (by simp)
  | some e =>
    rw [hfe, Option.map_some'] at hL
    obtain rfl : nextList b e = L := Option.some_injective _ hL
    obtain ⟨q, _, rfl⟩ := mem_nextList.mp hmem
    exact ⟨e, q, rfl⟩

theorem WellFormed.legalMove {b b' : Board} (hb : WellFormed b)
    (h : LegalMove b b') : WellFormed b' := by
  obtain ⟨e, q, _, _, rfl⟩ := h
  exact hb.copy_and_swap e q

theorem WellFormed.step {b b' : Board} (hb : WellFormed b)
    (h : Step b b') : WellFormed b' := by
  obtain ⟨x, y, rfl⟩ := step_is_swap h
  exact hb.copy_and_swap x y

theorem WellFormed.gpns_isSome {b : Board} (hb : WellFormed b) :
    ∃ e, b.find_empty_cell = some e ∧
      b.get_possible_next_states = some (nextList b e) := by
  obtain ⟨e, he, _⟩ := hb.find_empty_isSome
  exact ⟨e, he, by rw [get_possible_next_states_eq, he, Option.map_some']⟩

/-! ## The Manhattan-distance heuristic -/

theorem manhattan_self (p : Pos) : manhattan p p = 0 := by simp [manhattan]

theorem manhattan_nonneg (p q : Pos) : 0 ≤ manhattan p q := by
  unfold manhattan
  positivity

theorem manhattan_eq_zero {p q : Pos} (h : manhattan p q = 0) : p = q := by
  unfold manhattan at h
  have h1 : |(p.1.val : Int) - (q.1.val : Int)| = 0 ∧ |(p.2.val : Int) - (q.2.val : Int)| = 0 := by
    constructor <;> [skip; skip] <;>
      · have := abs_nonneg ((p.1.val : Int) - (q.1.val : Int))
        have := abs_nonneg ((p.2.val : Int) - (q.2.val : Int))
        omega
  have hv1 : (p.1.val : ℕ) = q.1.val := by
    have := abs_eq_zero.mp h1.1; omega
  have hv2 : (p.2.val : ℕ) = q.2.val := by
    have := abs_eq_zero.mp h1.2; omega
  exact Prod.ext (Fin.ext hv1) (Fin.ext hv2)

/-- Triangle-style bound used for heuristic consistency: moving a tile from
`q` to `e` changes its Manhattan term towards a fixed target `t` by at most
the Manhattan distance between `e` and `q`. -/
theorem manhattan_sub_le (e q t : Pos) :
    |manhattan e t - manhattan q t| ≤ manhattan e q := by
  unfold manhattan
  rcases abs_cases ((e.1.val : Int) - t.1.val) with ⟨h1, _⟩ | ⟨h1, _⟩ <;>
    rcases abs_cases ((e.2.val : Int) - t.2.val) with ⟨h2, _⟩ | ⟨h2, _⟩ <;>
    rcases abs_cases ((q.1.val : Int) - t.1.val) with ⟨h3, _⟩ | ⟨h3, _⟩ <;>
    rcases abs_cases ((q.2.val : Int) - t.2.val) with ⟨h4, _⟩ | ⟨h4, _⟩ <;>
    rcases abs_cases ((e.1.val : Int) - q.1.val) with ⟨h5, _⟩ | ⟨h5, _⟩ <;>
    rcases abs_cases ((e.2.val : Int) - q.2.val) with ⟨h6, _⟩ | ⟨h6, _⟩ <;>
    rcases abs_cases ((|(e.1.val : Int) - t.1.val| + |(e.2.val : Int) - t.2.val|)
      - (|(q.1.val : Int) - t.1.val| + |(q.2.val : Int) - t.2.val|)) with ⟨h7, _⟩ | ⟨h7, _⟩ <;>
    omega

theorem locate_eq {b : Board} {n : Int} {p : Pos}
    (h : b.find_number n = some p) : locate b n = p := by
  unfold locate; rw [h]; rfl

theorem WellFormed.find_number_locate {b : Board} (hb : WellFormed b)
    {n : Int} (hn : n ∈ labels) :
    b.find_number n = some (locate b n) ∧ b.cell (locate b n) = some n := by
  obtain ⟨p, hfind, hcell⟩ := hb.find_number_isSome hn
  rw [locate_eq hfind]
  exact ⟨hfind, hcell⟩

theorem WellFormed.locate_unique {b : Board} (hb : WellFormed b)
    {n : Int} (hn : n ∈ labels) {p : Pos} (hp : b.cell p = some n) :
    locate b n = p :=
  cellCount_unique (hb.2 n hn) (hb.find_number_locate hn).2 hp

theorem distance_foldlM_aux (b c : Board) :
    ∀ (l : List Int) (acc : Int),
      (∀ n ∈ l, (∃ p, b.find_number n = some p) ∧ (∃ q, c.find_number n = some q)) →
      l.foldlM
        (fun total number =>
          match b.find_number number, c.find_number number with
          | some sp, some op => some (total + manhattan sp op)
          | _, _ => none)
        acc
      = some (acc + (l.map fun n => manhattan (locate b n) (locate c n)).sum)
  | [], acc, _ => by simp
  | n :: l, acc, h => by
    obtain ⟨⟨p, hp⟩, ⟨q, hq⟩⟩ := h n (List.mem_cons_self n l)
    rw [List.foldlM_cons, hp, hq]
    show (l.foldlM _ (acc + manhattan p q) : Option Int) = _
    rw [distance_foldlM_aux b c l (acc + manhattan p q)
      (fun m hm => h m (List.mem_cons_of_mem n hm))]
    rw [List.map_cons, List.sum_cons, locate_eq hp, locate_eq hq]
    simp [add_assoc]

theorem distance_eq_sum {b c : Board} (hb : WellFormed b) (hc : WellFormed c) :
    b.distance c = some ((labels.map fun n => manhattan (locate b n) (locate c n)).sum) := by
  unfold Board.distance
  rw [distance_foldlM_aux b c labels 0 fun n hn =>
    ⟨⟨_, (hb.find_number_locate hn).1⟩, ⟨_, (hc.find_number_locate hn).1⟩⟩]
  rw [zero_add]

theorem wf_FINISHED : WellFormed FINISHED := by decide

theorem distance_self {b : Board} (hb : WellFormed b) : b.distance b = some 0 := by
  rw [distance_eq_sum hb hb]
  congr 1
  apply List.sum_eq_zero
  intro x hx
  rw [List.mem_map] at hx
  obtain ⟨n, _, rfl⟩ := hx
  exact manhattan_self _

theorem list_sum_zero_of_nonneg :
    ∀ l : List Int, (∀ x ∈ l, 0 ≤ x) → l.sum = 0 → ∀ x ∈ l, x = 0
  | [], _, _, x, hx => absurd hx (List.not_mem_nil x)
  | a :: l, hpos, hsum, x, hx => by
    have hl : ∀ y ∈ l, 0 ≤ y := fun y hy => hpos y (List.mem_cons_of_mem a hy)
    have hsl : 0 ≤ l.sum := List.sum_nonneg hl
    have ha : 0 ≤ a := hpos a (List.mem_cons_self a l)
    rw [List.sum_cons] at hsum
    rcases List.mem_cons.mp hx with rfl | hx'
    · omega
    · exact list_sum_zero_of_nonneg l hl (by omega) x hx'

theorem distance_goal_zero_iff {b : Board} (hb : WellFormed b) :
    b.distance FINISHED = some 0 ↔ b = FINISHED := by
  constructor
  · intro h
    rw [distance_eq_sum hb wf_FINISHED] at h
    have hsum : (labels.map fun n => manhattan (locate b n) (locate FINISHED n)).sum = 0 :=
      Option.some_injective _ h
    have hzero : ∀ n ∈ labels, locate b n = locate FINISHED n := by
      intro n hn
      refine manhattan_eq_zero ?_
      refine list_sum_zero_of_nonneg _ ?_ hsum _ (List.mem_map.mpr ⟨n, hn, rfl⟩)
      intro x hx
      rw [List.mem_map] at hx
      obtain ⟨m, _, rfl⟩ := hx
      exact manhattan_nonneg _ _
    apply Board.ext_cell
    intro p
    rcases wf_FINISHED.cell_cases p with hnone | ⟨n, hn, hsome⟩
    · rcases hb.cell_cases p with hbnone | ⟨m, hm, hbsome⟩
      · rw [hnone, hbnone]
      · exfalso
        have h1 : locate b m = p := hb.locate_unique hm hbsome
        have h2 : locate FINISHED m = p := by rw [← hzero m hm, h1]
        have := (wf_FINISHED.find_number_locate hm).2
        rw [h2, hnone] at this
        exact Option.noConfusion this
    · have h1 : locate FINISHED n = p := wf_FINISHED.locate_unique hn hsome
      have h2 : locate b n = p := by rw [hzero n hn, h1]
      have := (hb.find_number_locate hn).2
      rw [h2] at this
      rw [this, hsome]
  · rintro rfl
    exact distance_self wf_FINISHED

theorem labels_nodup : labels.Nodup := by decide

theorem list_sum_sub_single :
    ∀ (l : List Int) (m : Int) (f g : Int → Int), l.Nodup → m ∈ l →
      (∀ n ∈ l, n ≠ m → f n = g n) →
      (l.map f).sum - (l.map g).sum = f m - g m
  | [], m, _, _, _, hm, _ => absurd hm (List.not_mem_nil m)
  | a :: l, m, f, g, hnd, hm, hagree => by
    rcases List.mem_cons.mp hm with rfl | hm'
    · have hnotin : m ∉ l := (List.nodup_cons.mp hnd).1
      have : l.map f = l.map g := by
        apply List.map_congr_left
        intro n hn
        exact hagree n (List.mem_cons_of_mem m hn) (fun heq => hnotin (heq ▸ hn))
      rw [List.map_cons, List.map_cons, List.sum_cons, List.sum_cons, this]
      ring
    · have hfa : f a = g a := by
        refine hagree a (List.mem_cons_self a l) ?_
        rintro rfl
        exact (List.nodup_cons.mp hnd).1 hm'
      have := list_sum_sub_single l m f g (List.nodup_cons.mp hnd).2 hm'
        (fun n hn hne => hagree n (List.mem_cons_of_mem a hn) hne)
      rw [List.map_cons, List.map_cons, List.sum_cons, List.sum_cons, hfa]
      omega

/-- Consistency of the Manhattan heuristic along one successor move: the
swap moves exactly one labelled tile one cell, so the summed distance to the
goal changes by at most 1. -/
theorem distance_step_consistent {b b' : Board} (hb : WellFormed b) (h : Step b b') :
    ∃ v v' : Int, b.distance FINISHED = some v ∧ b'.distance FINISHED = some v' ∧
      |v' - v| ≤ 1 := by
  have hb' : WellFormed b' := hb.step h
  obtain ⟨e, q, hcelle, hmanh, rfl⟩ := (step_iff_legalMove hb).mp h
  have hne : q ≠ e := by
    rintro rfl
    rw [manhattan_self] at hmanh
    exact absurd hmanh (by norm_num)
  obtain ⟨m, hm, hcellq⟩ : ∃ n ∈ labels, b.cell q = some n := by
    rcases hb.cell_cases q with hnone | hsome
    · exact absurd (cellCount_unique hb.1 hnone hcelle) hne
    · exact hsome
  -- cells of the swapped board
  have hce : (b.copy_and_swap e q).cell e = some m := by
    rw [cell_copy_and_swap, Equiv.swap_apply_left, hcellq]
  have hcq : (b.copy_and_swap e q).cell q = none := by
    rw [cell_copy_and_swap, Equiv.swap_apply_right, hcelle]
  have hother : ∀ r : Pos, r ≠ e → r ≠ q → (b.copy_and_swap e q).cell r = b.cell r := by
    intro r hre hrq
    rw [cell_copy_and_swap, Equiv.swap_apply_of_ne_of_ne hre hrq]
  -- label positions after the swap
  have hlocm : locate (b.copy_and_swap e q) m = e := hb'.locate_unique hm hce
  have hlocm' : locate b m = q := hb.locate_unique hm hcellq
  have hlocother : ∀ n ∈ labels, n ≠ m →
      locate (b.copy_and_swap e q) n = locate b n := by
    intro n hn hnm
    have hcelln : b.cell (locate b n) = some n := (hb.find_number_locate hn).2
    have hre : locate b n ≠ e := by
      intro heq
      rw [heq, hcelle] at hcelln
      exact Option.noConfusion hcelln
    have hrq : locate b n ≠ q := by
      intro heq
      rw [heq, hcellq] at hcelln
      exact hnm (Option.some_injective _ hcelln.symm)
    refine hb'.locate_unique hn ?_
    rw [hother _ hre hrq]
    exact hcelln
  refine ⟨_, _, distance_eq_sum hb wf_FINISHED, distance_eq_sum hb' wf_FINISHED, ?_⟩
  have hdiff := list_sum_sub_single labels m
    (fun n => manhattan (locate (b.copy_and_swap e q) n) (locate FINISHED n))
    (fun n => manhattan (locate b n) (locate FINISHED n))
    labels_nodup hm
    (fun n hn hne' => by simp only [hlocother n hn hne'])
  rw [hdiff]
  show |manhattan (locate (b.copy_and_swap e q) m) (locate FINISHED m)
    - manhattan (locate b m) (locate FINISHED m)| ≤ 1
  rw [hlocm, hlocm']
  have := manhattan_sub_le e q (locate FINISHED m)
  rw [hmanh] at this
  exact this

/-! ## The frontier ordering -/

theorem cmpOptInt_lt_iff {x y : Option Int} : cmpOptInt x y = .lt ↔ optLt x y := by
  cases x <;> cases y <;> simp [cmpOptInt, optLt, compare_lt_iff_lt]

theorem optLt_irrefl (a : Option Int) : ¬ optLt a a := by
  cases a <;> simp [optLt]

theorem optLt_trans {a b c : Option Int} : optLt a b → optLt b c → optLt a c := by
  cases a <;> cases b <;> cases c <;> simp [optLt]
  all_goals omega

theorem optLt_not_lt_trans {a b c : Option Int} :
    ¬ optLt a b → optLt a c → optLt b c := by
  cases a <;> cases b <;> cases c <;> simp [optLt]
  all_goals omega

theorem keyLt_irrefl (a : Int × Option Int) : ¬ keyLt a a := by
  rintro (h | ⟨-, h⟩)
  · exact lt_irrefl _ h
  · exact optLt_irrefl _ h

theorem keyLt_trans {a b c : Int × Option Int} :
    keyLt a b → keyLt b c → keyLt a c := by
  unfold keyLt
  rintro (h1 | ⟨h1, h1'⟩) (h2 | ⟨h2, h2'⟩)
  · exact Or.inl (h1.trans h2)
  · exact Or.inl (h2 ▸ h1)
  · exact Or.inl (h1 ▸ h2)
  · exact Or.inr ⟨h1.trans h2, optLt_trans h1' h2'⟩

theorem keyLt_of_not_lt_of_lt {a b c : Int × Option Int} :
    ¬ keyLt a b → keyLt a c → keyLt b c := by
  intro h1 h2
  have hba : ¬ a.1 < b.1 := fun hh => h1 (Or.inl hh)
  rcases h2 with h2 | ⟨h2, h2'⟩
  · exact Or.inl (by omega)
  · rcases lt_or_eq_of_le (not_lt.mp hba) with hlt | heq
    · exact Or.inl (by omega)
    · have hopt : ¬ optLt a.2 b.2 := fun hh => h1 (Or.inr ⟨heq.symm, hh⟩)
      exact Or.inr ⟨by omega, optLt_not_lt_trans hopt h2'⟩

theorem cmp_lt_iff_keyLt (s t : State) :
    State.cmp s t = .lt ↔ keyLt (key t) (key s) := by
  unfold State.cmp key keyLt
  have hthen : ∀ o p : Ordering, (o.then p) = Ordering.lt ↔ (o = .lt ∨ (o = .eq ∧ p = .lt)) := by
    intro o p; cases o <;> simp [Ordering.then]
  rw [hthen, compare_lt_iff_lt, compare_eq_iff_eq, cmpOptInt_lt_iff]

theorem popMax1_perm :
    ∀ (rest : List State) (s : State),
      ((popMax1 s rest).1 :: (popMax1 s rest).2).Perm (s :: rest)
  | [], s => by simp [popMax1]
  | t :: ts, s => by
    rw [popMax1]
    by_cases h : State.cmp s t = Ordering.lt
    · rw [if_pos h]
      exact (List.Perm.swap s (popMax1 t ts).1 (popMax1 t ts).2).trans
        ((popMax1_perm ts t).cons s)
    · rw [if_neg h]
      exact ((List.Perm.swap t (popMax1 s ts).1 (popMax1 s ts).2).trans
        ((popMax1_perm ts s).cons t)).trans (List.Perm.swap s t ts)

theorem popMax1_max :
    ∀ (rest : List State) (s : State), ∀ t ∈ s :: rest,
      State.cmp (popMax1 s rest).1 t ≠ Ordering.lt
  | [], s, t, ht => by
    simp at ht
    subst ht
    rw [popMax1]
    intro hcon
    rw [cmp_lt_iff_keyLt] at hcon
    exact keyLt_irrefl _ hcon
  | u :: ts, s, t, ht => by
    rw [popMax1]
    by_cases h : State.cmp s u = Ordering.lt
    · rw [if_pos h]
      rcases List.mem_cons.mp ht with rfl | ht'
      · intro hcon
        rw [cmp_lt_iff_keyLt] at hcon
        have hmu := popMax1_max ts u u (List.mem_cons_self u ts)
        rw [cmp_lt_iff_keyLt] at h
        refine hmu ?_
        rw [cmp_lt_iff_keyLt]
        exact keyLt_trans h hcon
      · exact popMax1_max ts u t ht'
    · rw [if_neg h]
      rcases List.mem_cons.mp ht with rfl | ht'
      · exact popMax1_max ts t t (List.mem_cons_self t ts)
      · rcases List.mem_cons.mp ht' with rfl | ht''
        · intro hcon
          rw [cmp_lt_iff_keyLt] at hcon
          have hms := popMax1_max ts s s (List.mem_cons_self s ts)
          have h' : ¬ keyLt (key t) (key s) := by
            rw [cmp_lt_iff_keyLt] at h
            exact h
          refine hms ?_
          rw [cmp_lt_iff_keyLt]
          exact keyLt_of_not_lt_of_lt h' hcon
        · exact popMax1_max ts s t (List.mem_cons_of_mem s ht'')

theorem popMax_perm {Q : List State} {s : State} {rest : List State}
    (h : popMax Q = some (s, rest)) : (s :: rest).Perm Q := by
  cases Q with
  | nil => exact absurd h (by simp [popMax])
  | cons q qs =>
    rw [popMax] at h
    obtain ⟨h1, h2⟩ : (popMax1 q qs).1 = s ∧ (popMax1 q qs).2 = rest := by
      have := Option.some_injective _ h
      exact ⟨congrArg Prod.fst this, congrArg Prod.snd this⟩
    rw [← h1, ← h2]
    exact popMax1_perm qs q

theorem popMax_max {Q : List State} {s : State} {rest : List State}
    (h : popMax Q = some (s, rest)) :
    ∀ t ∈ Q, State.cmp s t ≠ Ordering.lt := by
  cases Q with
  | nil => exact absurd h (by simp [popMax])
  | cons q qs =>
    rw [popMax] at h
    obtain ⟨h1, _⟩ : (popMax1 q qs).1 = s ∧ (popMax1 q qs).2 = rest := by
      have := Option.some_injective _ h
      exact ⟨congrArg Prod.fst this, congrArg Prod.snd this⟩
    intro t ht
    rw [← h1]
    exact popMax1_max qs q t ht

theorem popMax_eq_none {Q : List State} : popMax Q = none ↔ Q = [] := by
  cases Q <;> simp [popMax]

/-! ## Claim theorems: the Board component -/

/-- Claim C10: for every board and pair of in-grid positions `p`, `q`,
`copy_and_swap` returns a board holding the former content of `q` at `p`,
the former content of `p` at `q`, and the unchanged content everywhere
else.  The original board value is untouched (boards are immutable pure
values in the embedding, as in the Rust code, which copies the array). -/
theorem c10_copy_and_swap_frame (b : Board) (p q r : Pos) :
    (b.copy_and_swap p q).cell p = b.cell q ∧
    (b.copy_and_swap p q).cell q = b.cell p ∧
    (r ≠ p → r ≠ q → (b.copy_and_swap p q).cell r = b.cell r) := by
  refine ⟨?_, ?_, fun h1 h2 => ?_⟩
  · rw [cell_copy_and_swap, Equiv.swap_apply_left]
  · rw [cell_copy_and_swap, Equiv.swap_apply_right]
  · rw [cell_copy_and_swap, Equiv.swap_apply_of_ne_of_ne h1 h2]

theorem c10_witness :
    (FINISHED.copy_and_swap (0, 0) (1, 1)).cell (0, 0) = FINISHED.cell (1, 1) ∧
    (FINISHED.copy_and_swap (0, 0) (1, 1)).cell (1, 1) = FINISHED.cell (0, 0) ∧
    (((2, 2) : Pos) ≠ (0, 0) → ((2, 2) : Pos) ≠ (1, 1) →
      (FINISHED.copy_and_swap (0, 0) (1, 1)).cell (2, 2) = FINISHED.cell (2, 2)) :=
  c10_copy_and_swap_frame FINISHED (0, 0) (1, 1) (2, 2)

/-- Claim C9: on a well-formed board every `find_number` lookup for labels
1–8 and the `find_empty_cell` lookup succeed, so the `unwrap()` calls inside
`distance` and `get_possible_next_states` cannot panic: `distance` against
any well-formed board and `get_possible_next_states` both return a value
(`some` in the embedding, where `none` models the panic). -/
theorem c9_lookups_succeed (b : Board) (hb : WellFormed b) :
    (∀ n ∈ labels, ∃ p, b.find_number n = some p) ∧
    (∃ p, b.find_empty_cell = some p) ∧
    (∀ c, WellFormed c → ∃ v, b.distance c = some v) ∧
    (∃ L, b.get_possible_next_states = some L) := by
  obtain ⟨e, he, hgp⟩ := hb.gpns_isSome
  exact ⟨fun n hn => ⟨_, (hb.find_number_locate hn).1⟩, ⟨e, he⟩,
    fun c hc => ⟨_, distance_eq_sum hb hc⟩, ⟨_, hgp⟩⟩

theorem c9_witness :
    WellFormed FINISHED ∧
    ((∀ n ∈ labels, ∃ p, FINISHED.find_number n = some p) ∧
     (∃ p, FINISHED.find_empty_cell = some p) ∧
     (∀ c, WellFormed c → ∃ v, FINISHED.distance c = some v) ∧
     (∃ L, FINISHED.get_possible_next_states = some L)) :=
  ⟨by decide, c9_lookups_succeed FINISHED (by decide)⟩

/-- Claim C7: for a well-formed board, the heuristic distance to the goal is
zero exactly on the goal board, and the distance of a board to itself is
zero — hence the search's goal test `distance == 0` succeeds exactly at the
goal. -/
theorem c7_distance_zero_iff_goal (b : Board) (hb : WellFormed b) :
    (b.distance FINISHED = some 0 ↔ b = FINISHED) ∧ b.distance b = some 0 :=
  ⟨distance_goal_zero_iff hb, distance_self hb⟩

theorem c7_witness :
    WellFormed FINISHED ∧
    ((FINISHED.distance FINISHED = some 0 ↔ FINISHED = FINISHED) ∧
      FINISHED.distance FINISHED = some 0) :=
  ⟨by decide, c7_distance_zero_iff_goal FINISHED (by decide)⟩

/-- Claim C4: on a well-formed board the successor generator finds the blank
cell `e` and returns exactly the boards obtained by swapping the blank with
each in-grid cell at Manhattan distance 1, generated in the fixed offset
order up, left, right, down of `nextList`; between 2 and 4 boards, never
zero. -/
theorem c4_successor_spec (b : Board) (hb : WellFormed b) :
    ∃ e : Pos, b.find_empty_cell = some e ∧ b.cell e = none ∧
      b.get_possible_next_states = some (nextList b e) ∧
      (∀ b' : Board, b' ∈ nextList b e ↔
        ∃ q : Pos, manhattan e q = 1 ∧ b' = b.copy_and_swap e q) ∧
      2 ≤ (nextList b e).length ∧ (nextList b e).length ≤ 4 := by
  obtain ⟨e, he, hcell⟩ := hb.find_empty_isSome
  refine ⟨e, he, hcell, ?_, fun b' => mem_nextList, (nextList_length b e).1,
    (nextList_length b e).2⟩
  rw [get_possible_next_states_eq, he, Option.map_some']

theorem c4_witness :
    WellFormed FINISHED ∧
    (∃ e : Pos, FINISHED.find_empty_cell = some e ∧ FINISHED.cell e = none ∧
      FINISHED.get_possible_next_states = some (nextList FINISHED e) ∧
      (∀ b' : Board, b' ∈ nextList FINISHED e ↔
        ∃ q : Pos, manhattan e q = 1 ∧ b' = FINISHED.copy_and_swap e q) ∧
      2 ≤ (nextList FINISHED e).length ∧ (nextList FINISHED e).length ≤ 4) :=
  ⟨by decide, c4_successor_spec FINISHED (by decide)⟩

/-- Claim C5: successor generation preserves well-formedness — every board
produced by `get_possible_next_states` from a well-formed board again has
exactly one blank and each label 1–8 exactly once (each successor is a
single swap, which permutes cell contents). -/
theorem c5_successors_wellformed (b : Board) (hb : WellFormed b)
    (L : List Board) (hL : b.get_possible_next_states = some L) :
    ∀ b' ∈ L, WellFormed b' :=
  fun _ hm => hb.step ⟨L, hL, hm⟩

theorem c5_witness :
    WellFormed FINISHED ∧
    (FINISHED.get_possible_next_states = some (nextList FINISHED (2, 2)) ∧
      ∀ b' ∈ nextList FINISHED (2, 2), WellFormed b') := by
  have hL : FINISHED.get_possible_next_states = some (nextList FINISHED (2, 2)) := by
    rw [get_possible_next_states_eq, show FINISHED.find_empty_cell = some (2, 2) by decide,
      Option.map_some']
  exact ⟨by decide, hL, c5_successors_wellformed FINISHED (by decide) _ hL⟩

/-- Claim C6: the frontier is a min-priority queue keyed lexicographically
by `(f, h)`: the state returned by a pop is, among all states in the
frontier, of minimal `f`, and of minimal heuristic distance to the goal
among those of equal `f` — this is what the reversed comparisons of
`Ord for State` realise under the heap's max-pop. -/
theorem c6_pop_min_priority (Q : List State) (s : State) (rest : List State)
    (hwf : ∀ t ∈ Q, WellFormed t.board) (hpop : popMax Q = some (s, rest)) :
    (s :: rest).Perm Q ∧
    ∀ t ∈ Q, s.f ≤ t.f ∧ (s.f = t.f →
      ∃ hs ht : Int, s.board.distance FINISHED = some hs ∧
        t.board.distance FINISHED = some ht ∧ hs ≤ ht) := by
  refine ⟨popMax_perm hpop, fun t htm => ?_⟩
  have hmax : ¬ keyLt (key t) (key s) := fun hk => popMax_max hpop t htm (by
    rw [cmp_lt_iff_keyLt]; exact hk)
  have hs_mem : s ∈ Q := (popMax_perm hpop).mem_iff.mp (List.mem_cons_self s rest)
  obtain ⟨vs, hvs⟩ : ∃ v, s.board.distance FINISHED = some v :=
    ⟨_, distance_eq_sum (hwf s hs_mem) wf_FINISHED⟩
  obtain ⟨vt, hvt⟩ : ∃ v, t.board.distance FINISHED = some v :=
    ⟨_, distance_eq_sum (hwf t htm) wf_FINISHED⟩
  simp only [keyLt, key] at hmax
  push_neg at hmax
  constructor
  · exact hmax.1
  · intro hfeq
    refine ⟨vs, vt, hvs, hvt, ?_⟩
    have h2 := hmax.2 hfeq.symm
    rw [hvs, hvt] at h2
    exact not_lt.mp (by simpa [optLt] using h2)

/-! ## Claim C8: the one-move scenario -/

/-- Claim C8: on the one-move starting board, `search` returns a path of
length exactly 2 ending at the goal board. -/
theorem c8_one_move_scenario :
    ∃ p, search oneMoveBoard = SearchResult.found p ∧ p.length = 2 ∧
      p.getLast? = some FINISHED ∧ p.head? = some oneMoveBoard := by
  have h1 : oneMoveBoard.copy_and_swap (1, 2) (2, 2) = FINISHED := by decide
  have h2 : search oneMoveBoard
      = SearchResult.found [oneMoveBoard, oneMoveBoard.copy_and_swap (1, 2) (2, 2)] := by
    decide
  rw [h1] at h2
  exact ⟨[oneMoveBoard, FINISHED], h2, rfl, rfl, rfl⟩

/-! ## Paths and step counts -/

theorem relN_zero {R : Board → Board → Prop} {a b : Board} :
    RelN R 0 a b ↔ a = b := Iff.rfl

theorem relN_succ {R : Board → Board → Prop} {n : ℕ} {a c : Board} :
    RelN R (n + 1) a c ↔ ∃ b, R a b ∧ RelN R n b c := Iff.rfl

theorem relN_succ_right {R : Board → Board → Prop} :
    ∀ {n : ℕ} {a c : Board}, RelN R (n + 1) a c ↔ ∃ b, RelN R n a b ∧ R b c := by
  intro n
  induction n with
  | zero =>
    intro a c
    constructor
    · rintro ⟨b, hab, rfl⟩
      exact ⟨a, rfl, hab⟩
    · rintro ⟨b, rfl, hbc⟩
      exact ⟨c, hbc, rfl⟩
  | succ n ih =>
    intro a c
    constructor
    · rintro ⟨b, hab, hbc⟩
      obtain ⟨m, hbm, hmc⟩ := ih.mp hbc
      exact ⟨m, ⟨b, hab, hbm⟩, hmc⟩
    · rintro ⟨m, ⟨b, hab, hbm⟩, hmc⟩
      exact ⟨b, hab, ih.mpr ⟨m, hbm, hmc⟩⟩

theorem relN_preserves {R : Board → Board → Prop} {P : Board → Prop}
    (hP : ∀ {x y}, P x → R x y → P y) :
    ∀ {n : ℕ} {a b : Board}, P a → RelN R n a b → P b := by
  intro n
  induction n with
  | zero => rintro a b ha rfl; exact ha
  | succ n ih =>
    rintro a b ha ⟨c, hac, hcb⟩
    exact ih (hP ha hac) hcb

theorem chain'_relN {R : Board → Board → Prop} :
    ∀ {p : List Board} {a b : Board}, p.Chain' R → p.head? = some a →
      p.getLast? = some b → RelN R (p.length - 1) a b := by
  intro p
  induction p with
  | nil => intro a b _ h; exact absurd h (by simp)
  | cons x rest ih =>
    intro a b hc hh hl
    obtain rfl : a = x := by simpa using hh.symm
    cases rest with
    | nil =>
      obtain rfl : a = b := by simpa using hl
      rfl
    | cons y ys =>
      have hstep : R a y := (List.chain'_cons.mp hc).1
      have htail : (y :: ys).Chain' R := (List.chain'_cons.mp hc).2
      have hlast : (y :: ys).getLast? = some b := by
        rw [List.getLast?_cons_cons] at hl
        exact hl
      have := ih htail rfl hlast
      exact ⟨y, hstep, this⟩

theorem relN_path {R : Board → Board → Prop} :
    ∀ {n : ℕ} {a b : Board}, RelN R n a b →
      ∃ p : List Board, p.length = n + 1 ∧ p.head? = some a ∧
        p.getLast? = some b ∧ p.Chain' R := by
  intro n
  induction n with
  | zero =>
    rintro a b rfl
    exact ⟨[a], rfl, rfl, rfl, by simp⟩
  | succ n ih =>
    rintro a b ⟨c, hac, hcb⟩
    obtain ⟨p, hlen, hh, hl, hcn⟩ := ih hcb
    cases p with
    | nil => exact absurd hh (by simp)
    | cons z zs =>
      obtain rfl : c = z := by simpa using hh.symm
      refine ⟨a :: c :: zs, by simpa using hlen, rfl, ?_, ?_⟩
      · rw [List.getLast?_cons_cons]
        exact hl
      · exact List.chain'_cons.mpr ⟨hac, hcn⟩

theorem wf_stepN {a b : Board} {n : ℕ} (ha : WellFormed a) (h : StepN n a b) :
    WellFormed b :=
  relN_preserves (fun hx hxy => hx.step hxy) ha h

theorem wf_moveN {a b : Board} {n : ℕ} (ha : WellFormed a) (h : MoveN n a b) :
    WellFormed b :=
  relN_preserves (fun hx hxy => hx.legalMove hxy) ha h

theorem moveN_iff_stepN {n : ℕ} :
    ∀ {a b : Board}, WellFormed a → (MoveN n a b ↔ StepN n a b) := by
  induction n with
  | zero => intro a b _; exact Iff.rfl
  | succ n ih =>
    intro a b ha
    constructor
    · rintro ⟨c, hac, hcb⟩
      have hac' : Step a c := (step_iff_legalMove ha).mpr hac
      exact ⟨c, hac', (ih (ha.step hac')).mp hcb⟩
    · rintro ⟨c, hac, hcb⟩
      exact ⟨c, (step_iff_legalMove ha).mp hac, (ih (ha.step hac)).mpr hcb⟩

theorem reachable_code_iff_legal {a b : Board} (ha : WellFormed a) :
    ReachableCode a b ↔ ReachableLegal a b := by
  constructor
  · rintro ⟨n, h⟩
    exact ⟨n, (moveN_iff_stepN ha).mpr h⟩
  · rintro ⟨n, h⟩
    exact ⟨n, (moveN_iff_stepN ha).mp h⟩

theorem stepN_sInf_eq_moveN_sInf {a b : Board} (ha : WellFormed a) :
    sInf {k | StepN k a b} = sInf {k | MoveN k a b} := by
  congr 1
  ext k
  exact (moveN_iff_stepN ha).symm

/-- Heuristic values drift by at most 1 per step along any successor path
from a well-formed board. -/
theorem distance_stepN_bound {n : ℕ} :
    ∀ {a b : Board}, WellFormed a → StepN n a b →
      ∃ va vb : Int, a.distance FINISHED = some va ∧
        b.distance FINISHED = some vb ∧ |va - vb| ≤ n := by
  induction n with
  | zero =>
    rintro a b ha rfl
    obtain ⟨v, hv⟩ : ∃ v, a.distance FINISHED = some v :=
      ⟨_, distance_eq_sum ha wf_FINISHED⟩
    exact ⟨v, v, hv, hv, by simp⟩
  | succ n ih =>
    rintro a b ha ⟨c, hac, hcb⟩
    obtain ⟨va, vc, hva, hvc, habs⟩ := distance_step_consistent ha hac
    obtain ⟨vc', vb, hvc', hvb, habs'⟩ := ih (ha.step hac) hcb
    obtain rfl : vc = vc' := Option.some_injective _ (hvc.symm.trans hvc')
    refine ⟨va, vb, hva, hvb, ?_⟩
    have h1 := abs_le.mp habs
    have h2 := abs_le.mp habs'
    rw [abs_le]
    push_cast
    omega

/-! ## Finiteness of the explored state space -/

theorem cellsIn_self (b : Board) : cellsIn (cellSet b) b := by
  intro p
  rw [cellSet, List.mem_toFinset, List.mem_map]
  exact ⟨p, mem_positions p, rfl⟩

theorem cellsIn_copy_and_swap {S : Finset (Option Int)} {b : Board}
    (h : cellsIn S b) (x y : Pos) : cellsIn S (b.copy_and_swap x y) := by
  intro p
  rw [cell_copy_and_swap]
  exact h _

theorem cellsIn_step {S : Finset (Option Int)} {b b' : Board}
    (h : cellsIn S b) (hs : Step b b') : cellsIn S b' := by
  obtain ⟨x, y, rfl⟩ := step_is_swap hs
  exact cellsIn_copy_and_swap h x y

theorem mem_boardsOver {S : Finset (Option Int)} {b : Board}
    (h : cellsIn S b) : b ∈ boardsOver S := by
  rw [boardsOver, Finset.mem_image]
  exact ⟨fun i j => ⟨b.b i j, h (i, j)⟩, Finset.mem_univ _, rfl⟩

theorem cellSet_card_le (b : Board) : (cellSet b).card ≤ 9 := by
  rw [cellSet]
  refine le_trans (List.toFinset_card_le _) ?_
  simp [positions]

set_option maxHeartbeats 1000000 in
theorem card_boardsOver_le {S : Finset (Option Int)} (h : S.card ≤ 9) :
    (boardsOver S).card ≤ 9 ^ 9 := by
  refine le_trans Finset.card_image_le ?_
  rw [Finset.card_univ]
  have h1 : Fintype.card (Fin 3 → Fin 3 → {x : Option Int // x ∈ S})
      = (Fintype.card {x : Option Int // x ∈ S} ^ 3) ^ 3 := by
    rw [Fintype.card_fun, Fintype.card_fun, Fintype.card_fin]
  rw [h1, Fintype.card_coe, ← pow_mul]
  exact Nat.pow_le_pow_left h 9

set_option maxHeartbeats 1000000 in
theorem visited_length_le {start : Board} {V : List Board}
    (hnd : V.Nodup) (hcells : ∀ v ∈ V, cellsIn (cellSet start) v) :
    V.length ≤ 9 ^ 9 := by
  calc V.length = V.toFinset.card := (List.toFinset_card_of_nodup hnd).symm
    _ ≤ (boardsOver (cellSet start)).card := by
        refine Finset.card_le_card ?_
        intro b hb
        exact mem_boardsOver (hcells b (List.mem_toFinset.mp hb))
    _ ≤ 9 ^ 9 := card_boardsOver_le (cellSet_card_le start)

/-! ## Successor-state construction -/

theorem mkNextStates_spec (current : State) :
    ∀ l : List Board, (∀ nb ∈ l, ∃ v : Int, nb.distance FINISHED = some v) →
      ∃ sts, mkNextStates current l = some sts ∧
        sts.length = l.length ∧
        (∀ t ∈ sts, ∃ nb ∈ l, ∃ hv : Int, nb.distance FINISHED = some hv ∧
          t = State.mk nb (current.path ++ [nb]) (current.g + 1) (current.g + 1 + hv)) ∧
        (∀ nb ∈ l, ∃ t ∈ sts, t.board = nb ∧ t.g = current.g + 1)
  | [], _ => ⟨[], rfl, rfl, fun t ht => absurd ht (List.not_mem_nil t),
      fun nb hnb => absurd hnb (List.not_mem_nil nb)⟩
  | nb :: l, h => by
    obtain ⟨v, hv⟩ := h nb (List.mem_cons_self nb l)
    obtain ⟨sts, hsts, hlen, hfwd, hbwd⟩ :=
      mkNextStates_spec current l fun x hx => h x (List.mem_cons_of_mem nb hx)
    refine ⟨State.mk nb (current.path ++ [nb]) (current.g + 1) (current.g + 1 + v) :: sts,
      ?_, by simp [hlen], ?_, ?_⟩
    · rw [mkNextStates, hv, hsts]
    · intro t ht
      rcases List.mem_cons.mp ht with rfl | ht'
      · exact ⟨nb, List.mem_cons_self nb l, v, hv, rfl⟩
      · obtain ⟨nb', hnb', hv', hveq, hteq⟩ := hfwd t ht'
        exact ⟨nb', List.mem_cons_of_mem nb hnb', hv', hveq, hteq⟩
    · intro x hx
      rcases List.mem_cons.mp hx with rfl | hx'
      · exact ⟨_, List.mem_cons_self _ sts, rfl, rfl⟩
      · obtain ⟨t, ht, htb, htg⟩ := hbwd x hx'
        exact ⟨t, List.mem_cons_of_mem _ ht, htb, htg⟩

/-! ## The A* loop invariant -/

theorem Inv.q_stepN {start : Board} {Q : List State} {V : List Board}
    (inv : Inv start Q V) {s : State} (hs : s ∈ Q) :
    StepN (s.path.length - 1) start s.board := by
  obtain ⟨hh, hl, hc⟩ := inv.q_path s hs
  exact chain'_relN hc hh hl

theorem Inv.q_g_ge {start : Board} {Q : List State} {V : List Board}
    (inv : Inv start Q V) {s : State} (hs : s ∈ Q) :
    ((sInf {k | StepN k start s.board} : ℕ) : Int) ≤ s.g ∧ 0 ≤ s.g := by
  have hstep := inv.q_stepN hs
  have hlen := inv.q_len s hs
  have hpos : 1 ≤ s.path.length := by
    obtain ⟨hh, -, -⟩ := inv.q_path s hs
    cases hp : s.path with
    | nil => rw [hp] at hh; exact absurd hh (by simp)
    | cons x xs => simp [hp]
  have hinf : sInf {k | StepN k start s.board} ≤ s.path.length - 1 :=
    Nat.sInf_le hstep
  constructor
  · have : ((s.path.length - 1 : ℕ) : Int) ≤ s.g := by omega
    exact le_trans (by exact_mod_cast Nat.cast_le.mpr hinf) this
  · omega

/-- One unfolding of the fueled loop. -/
theorem loop_succ_eq (fuel : ℕ) (Q : List State) (V : List Board) :
    loop (fuel + 1) Q V =
      match popMax Q with
      | none => .exhausted
      | some (current, rest) =>
        if current.board ∈ V then loop fuel rest V
        else
          match current.board.distance FINISHED with
          | none => .panicked
          | some d =>
            if d = 0 then .found current.path
            else
              match current.board.get_possible_next_states with
              | none => .panicked
              | some next_boards =>
                match mkNextStates current next_boards with
                | none => .panicked
                | some next_states =>
                  loop fuel (rest ++ next_states) (current.board :: V) := rfl

theorem Inv.stale {start : Board} {Q : List State} {V : List Board}
    {current : State} {rest : List State} (inv : Inv start Q V)
    (hperm : (current :: rest).Perm Q) (hv : current.board ∈ V) :
    Inv start rest V := by
  have hsub : ∀ s ∈ rest, s ∈ Q := fun s hs =>
    hperm.subset (List.mem_cons_of_mem current hs)
  refine ⟨fun s hs => inv.q_wf s (hsub s hs),
    fun s hs => inv.q_path s (hsub s hs),
    fun s hs => inv.q_len s (hsub s hs),
    fun s hs => inv.q_f s (hsub s hs),
    fun s hs => inv.q_cells s (hsub s hs),
    inv.v_nodup, inv.v_wf, inv.v_cells, inv.v_not_goal, ?_, ?_⟩
  · intro u hu w hsw hwv
    obtain ⟨t, htQ, htb, htg⟩ := inv.x_inv u hu w hsw hwv
    have ht' : t ∈ current :: rest := hperm.mem_iff.mpr htQ
    have htc : t ≠ current := by
      intro heq
      rw [heq] at htb
      rw [htb] at hv
      exact hwv hv
    rcases List.mem_cons.mp ht' with heq | htr
    · exact absurd heq htc
    · exact ⟨t, htr, htb, htg⟩
  · intro hsv
    obtain ⟨t, htQ, htb, htg⟩ := inv.s_inv hsv
    have ht' : t ∈ current :: rest := hperm.mem_iff.mpr htQ
    have htc : t ≠ current := by
      intro heq
      rw [heq] at htb
      rw [htb] at hv
      exact hsv hv
    rcases List.mem_cons.mp ht' with heq | htr
    · exact absurd heq htc
    · exact ⟨t, htr, htb, htg⟩

/-- The fringe lemma: as long as a board `w` reachable in `n` steps is
unexpanded, the frontier holds a state `t` with `t.g + h(t.board) ≤ n +
h(w)` — the combination of the crossing-edge invariant with the
consistency of the heuristic. -/
theorem Inv.fringe {start : Board} {Q : List State} {V : List Board}
    (hstart : WellFormed start) (inv : Inv start Q V) :
    ∀ (n : ℕ) (w : Board), StepN n start w → w ∉ V →
      ∃ t ∈ Q, ∃ ht hw : Int, t.board.distance FINISHED = some ht ∧
        w.distance FINISHED = some hw ∧ t.g + ht ≤ n + hw := by
  intro n
  induction n with
  | zero =>
    rintro w rfl hwv
    obtain ⟨t, htQ, htb, htg⟩ := inv.s_inv hwv
    obtain ⟨hw, hhw⟩ : ∃ v, start.distance FINISHED = some v :=
      ⟨_, distance_eq_sum hstart wf_FINISHED⟩
    refine ⟨t, htQ, hw, hw, ?_, hhw, by omega⟩
    rw [htb]
    exact hhw
  | succ n ih =>
    intro w hsw hwv
    obtain ⟨z, hz, hzw⟩ := relN_succ_right.mp hsw
    have hwfz : WellFormed z := wf_stepN hstart hz
    have hwfw : WellFormed w := hwfz.step hzw
    by_cases hzv : z ∈ V
    · obtain ⟨t, htQ, htb, htg⟩ := inv.x_inv z hzv w hzw hwv
      have hd : sInf {k | StepN k start z} ≤ n := Nat.sInf_le hz
      obtain ⟨hw', hhw⟩ : ∃ v, w.distance FINISHED = some v :=
        ⟨_, distance_eq_sum hwfw wf_FINISHED⟩
      refine ⟨t, htQ, hw', hw', ?_, hhw, ?_⟩
      · rw [htb]; exact hhw
      · push_cast
        omega
    · obtain ⟨t, htQ, ht, hz', hht, hhz, hbound⟩ := ih z hz hzv
      obtain ⟨vz, vw, hvz, hvw, habs⟩ := distance_step_consistent hwfz hzw
      obtain rfl : hz' = vz := Option.some_injective _ (hhz.symm.trans hvz)
      refine ⟨t, htQ, ht, vw, hht, hvw, ?_⟩
      have := abs_le.mp habs
      push_cast
      omega

theorem head?_append_of_head? {α : Type} {l : List α} {a : α}
    (h : l.head? = some a) (l' : List α) : (l ++ l').head? = some a := by
  cases l with
  | nil => exact absurd h (by simp)
  | cons x xs => simpa using h

/-- A* optimality at pop time: when the popped state's board is not yet
visited, its accumulated cost `g` is the true shortest step count from the
start — the first pop of any board is optimal. -/
theorem Inv.pop_g_opt {start : Board} {Q : List State} {V : List Board}
    (hstart : WellFormed start) (inv : Inv start Q V)
    {s : State} {rest : List State} (hpop : popMax Q = some (s, rest))
    (hsv : s.board ∉ V) :
    s.g = ((sInf {k | StepN k start s.board} : ℕ) : Int) := by
  have hs_mem : s ∈ Q := (popMax_perm hpop).mem_iff.mp (List.mem_cons_self s rest)
  have hreach : StepN (s.path.length - 1) start s.board := inv.q_stepN hs_mem
  have hmem_n : StepN (sInf {k | StepN k start s.board}) start s.board := by
    have hne : Set.Nonempty {k | StepN k start s.board} := ⟨_, hreach⟩
    simpa using Nat.sInf_mem hne
  obtain ⟨t, htQ, ht, hs', hht, hhs, hbound⟩ := inv.fringe hstart _ _ hmem_n hsv
  have hmax : ¬ keyLt (key t) (key s) := fun hk =>
    popMax_max hpop t htQ (by rw [cmp_lt_iff_keyLt]; exact hk)
  obtain ⟨hvs, hdvs, hfs⟩ := inv.q_f s hs_mem
  obtain ⟨hvt, hdvt, hft⟩ := inv.q_f t htQ
  obtain rfl : hvs = hs' := Option.some_injective _ (hdvs.symm.trans hhs)
  obtain rfl : hvt = ht := Option.some_injective _ (hdvt.symm.trans hht)
  have hf_le : s.f ≤ t.f := by
    simp only [keyLt, key] at hmax
    push_neg at hmax
    exact hmax.1
  have hge := (inv.q_g_ge hs_mem).1
  omega

/-- Invariant maintenance for the expansion branch: the popped board is
marked visited and all its successor states are pushed. -/
theorem Inv.expand {start : Board} {Q : List State} {V : List Board}
    {current : State} {rest : List State} {e : Pos} {sts : List State}
    (hstart : WellFormed start) (inv : Inv start Q V)
    (hpop : popMax Q = some (current, rest)) (hcv : current.board ∉ V)
    (hgoal : current.board ≠ FINISHED)
    (hgp : current.board.get_possible_next_states = some (nextList current.board e))
    (hfwd : ∀ t ∈ sts, ∃ nb ∈ nextList current.board e, ∃ hv : Int,
      nb.distance FINISHED = some hv ∧
      t = State.mk nb (current.path ++ [nb]) (current.g + 1) (current.g + 1 + hv))
    (hbwd : ∀ nb ∈ nextList current.board e, ∃ t ∈ sts, t.board = nb ∧ t.g = current.g + 1) :
    Inv start (rest ++ sts) (current.board :: V) := by
  have hperm := popMax_perm hpop
  have hcur_mem : current ∈ Q := hperm.mem_iff.mp (List.mem_cons_self current rest)
  have hsub_rest : ∀ s ∈ rest, s ∈ Q := fun s hs =>
    hperm.subset (List.mem_cons_of_mem current hs)
  have hcur_wf : WellFormed current.board := inv.q_wf current hcur_mem
  have hgopt := inv.pop_g_opt hstart hpop hcv
  obtain ⟨hh, hl, hc⟩ := inv.q_path current hcur_mem
  have hstep_nb : ∀ nb ∈ nextList current.board e, Step current.board nb :=
    fun nb hm => ⟨_, hgp, hm⟩
  refine ⟨?_, ?_, ?_, ?_, ?_, ?_, ?_, ?_, ?_, ?_, ?_⟩
  · -- q_wf
    intro s hs
    rcases List.mem_append.mp hs with hr | hsts
    · exact inv.q_wf s (hsub_rest s hr)
    · obtain ⟨nb, hnb, hv, _, rfl⟩ := hfwd s hsts
      exact hcur_wf.step (hstep_nb nb hnb)
  · -- q_path
    intro s hs
    rcases List.mem_append.mp hs with hr | hsts
    · exact inv.q_path s (hsub_rest s hr)
    · obtain ⟨nb, hnb, hv, _, rfl⟩ := hfwd s hsts
      refine ⟨head?_append_of_head? hh _, List.getLast?_concat _, ?_⟩
      refine hc.append (List.chain'_singleton nb) ?_
      intro x hx y hy
      obtain rfl : current.board = x := by rw [hl] at hx; simpa using hx
      obtain rfl : nb = y := by simpa using hy
      exact hstep_nb nb hnb
  · -- q_len
    intro s hs
    rcases List.mem_append.mp hs with hr | hsts
    · exact inv.q_len s (hsub_rest s hr)
    · obtain ⟨nb, hnb, hv, _, rfl⟩ := hfwd s hsts
      have := inv.q_len current hcur_mem
      simp only [List.length_append, List.length_singleton]
      push_cast
      omega
  · -- q_f
    intro s hs
    rcases List.mem_append.mp hs with hr | hsts
    · exact inv.q_f s (hsub_rest s hr)
    · obtain ⟨nb, hnb, hv, hveq, rfl⟩ := hfwd s hsts
      exact ⟨hv, hveq, rfl⟩
  · -- q_cells
    intro s hs
    rcases List.mem_append.mp hs with hr | hsts
    · exact inv.q_cells s (hsub_rest s hr)
    · obtain ⟨nb, hnb, hv, _, rfl⟩ := hfwd s hsts
      exact cellsIn_step (inv.q_cells current hcur_mem) (hstep_nb nb hnb)
  · -- v_nodup
    exact List.nodup_cons.mpr ⟨hcv, inv.v_nodup⟩
  · -- v_wf
    intro v hv
    rcases List.mem_cons.mp hv with rfl | hvV
    · exact hcur_wf
    · exact inv.v_wf v hvV
  · -- v_cells
    intro v hv
    rcases List.mem_cons.mp hv with rfl | hvV
    · exact inv.q_cells current hcur_mem
    · exact inv.v_cells v hvV
  · -- v_not_goal
    intro hmem
    rcases List.mem_cons.mp hmem with heq | hvV
    · exact hgoal heq.symm
    · exact inv.v_not_goal hvV
  · -- x_inv
    intro u hu w hsw hwv'
    have hwv : w ∉ V := fun h => hwv' (List.mem_cons_of_mem _ h)
    have hw_ne_cur : w ≠ current.board := fun h => hwv' (by rw [h]; exact List.mem_cons_self _ _)
    rcases List.mem_cons.mp hu with rfl | hu_V
    · obtain ⟨L', hL', hmem'⟩ := hsw
      obtain rfl : nextList current.board e = L' :=
        Option.some_injective _ (hgp.symm.trans hL')
      obtain ⟨t, htsts, htb, htg⟩ := hbwd w hmem'
      refine ⟨t, List.mem_append.mpr (Or.inr htsts), htb, ?_⟩
      rw [htg, hgopt]
    · obtain ⟨t, htQ, htb, htg⟩ := inv.x_inv u hu_V w hsw hwv
      have ht' : t ∈ current :: rest := hperm.mem_iff.mpr htQ
      have htc : t ≠ current := by
        intro heq
        rw [heq] at htb
        exact hw_ne_cur htb.symm
      rcases List.mem_cons.mp ht' with heq | htr
      · exact absurd heq htc
      · exact ⟨t, List.mem_append.mpr (Or.inl htr), htb, htg⟩
  · -- s_inv
    intro hsv'
    have hs_ne_cur : start ≠ current.board := fun h => hsv' (by rw [h]; exact List.mem_cons_self _ _)
    have hsv : start ∉ V := fun h => hsv' (List.mem_cons_of_mem _ h)
    obtain ⟨t, htQ, htb, htg⟩ := inv.s_inv hsv
    have ht' : t ∈ current :: rest := hperm.mem_iff.mpr htQ
    have htc : t ≠ current := by
      intro heq
      rw [heq] at htb
      exact hs_ne_cur htb.symm
    rcases List.mem_cons.mp ht' with heq | htr
    · exact absurd heq htc
    · exact ⟨t, List.mem_append.mpr (Or.inl htr), htb, htg⟩

/-- Master correctness theorem for the fueled loop: with the invariant
established and enough fuel, the loop either returns a shortest path from
the start to the goal, or exhausts the frontier exactly when the goal is
unreachable.  In particular it never panics and never runs out of fuel. -/
theorem loop_master (start : Board) (hstart : WellFormed start) :
    ∀ (fuel : ℕ) (Q : List State) (V : List Board), Inv start Q V →
      Q.length + 5 * (9 ^ 9 - V.length) < fuel →
      (∃ p, loop fuel Q V = .found p ∧ p.head? = some start ∧
        p.getLast? = some FINISHED ∧ p.Chain' Step ∧
        p.length = sInf {k | StepN k start FINISHED} + 1 ∧
        ReachableCode start FINISHED) ∨
      (loop fuel Q V = .exhausted ∧ ¬ ReachableCode start FINISHED) := by
  intro fuel
  induction fuel with
  | zero =>
    intro Q V _ hm
    exact absurd hm (by omega)
  | succ fuel ih =>
    intro Q V inv hm
    rw [loop_succ_eq]
    cases hpop : popMax Q with
    | none =>
      refine Or.inr ⟨rfl, ?_⟩
      rintro ⟨n, hn⟩
      obtain ⟨t, htQ, -⟩ := inv.fringe hstart n FINISHED hn inv.v_not_goal
      rw [popMax_eq_none.mp hpop] at htQ
      exact absurd htQ (List.not_mem_nil t)
    | some pair =>
      obtain ⟨current, rest⟩ := pair
      simp only
      have hperm := popMax_perm hpop
      have hQlen : Q.length = rest.length + 1 := by
        have := hperm.length_eq
        simpa using this.symm
      by_cases hv : current.board ∈ V
      · rw [if_pos hv]
        exact ih rest V (inv.stale hperm hv) (by omega)
      · rw [if_neg hv]
        have hcur_mem : current ∈ Q :=
          hperm.mem_iff.mp (List.mem_cons_self current rest)
        obtain ⟨dv, hdv, hfv⟩ := inv.q_f current hcur_mem
        simp only [hdv]
        by_cases hd0 : dv = 0
        · rw [if_pos hd0]
          left
          have hwf_cur := inv.q_wf current hcur_mem
          have hgoal : current.board = FINISHED :=
            (distance_goal_zero_iff hwf_cur).mp (by rw [hdv, hd0])
          obtain ⟨hh, hl, hc⟩ := inv.q_path current hcur_mem
          have hgopt := inv.pop_g_opt hstart hpop hv
          have hlen := inv.q_len current hcur_mem
          have hsinf : (sInf {k | StepN k start current.board})
              = sInf {k | StepN k start FINISHED} := by
            simp only [hgoal]
          refine ⟨current.path, rfl, hh, by rw [hl, hgoal], hc, ?_, ?_⟩
          · rw [hsinf] at hgopt
            omega
          · refine ⟨current.path.length - 1, ?_⟩
            have := inv.q_stepN hcur_mem
            rwa [hgoal] at this
        · rw [if_neg hd0]
          have hwf_cur := inv.q_wf current hcur_mem
          have hgoal_ne : current.board ≠ FINISHED := by
            intro heq
            apply hd0
            have hzero : current.board.distance FINISHED = some 0 := by
              rw [heq]
              exact distance_self wf_FINISHED
            exact Option.some_injective _ (hdv.symm.trans hzero)
          obtain ⟨e, he, hgp⟩ := hwf_cur.gpns_isSome
          simp only [hgp]
          have hall : ∀ nb ∈ nextList current.board e,
              ∃ v : Int, nb.distance FINISHED = some v := fun nb hm' =>
            ⟨_, distance_eq_sum (hwf_cur.step ⟨_, hgp, hm'⟩) wf_FINISHED⟩
          obtain ⟨sts, hsts, hstslen, hfwd, hbwd⟩ := mkNextStates_spec current _ hall
          simp only [hsts]
          have hinv' := inv.expand hstart hpop hv hgoal_ne hgp hfwd hbwd
          refine ih _ _ hinv' ?_
          have hstsle : sts.length ≤ 4 := by
            rw [hstslen]
            exact (nextList_length current.board e).2
          have hVle : (current.board :: V).length ≤ 9 ^ 9 :=
            visited_length_le hinv'.v_nodup hinv'.v_cells
          rw [List.length_append]
          rw [List.length_cons] at hVle ⊢
          omega

/-- `search` on a well-formed board either finds a shortest valid path to
the goal, or reports exhaustion exactly when the goal is unreachable. -/
theorem search_found_or_exhausted (start : Board) (hstart : WellFormed start) :
    (∃ p, search start = .found p ∧ p.head? = some start ∧
      p.getLast? = some FINISHED ∧ p.Chain' Step ∧
      p.length = sInf {k | StepN k start FINISHED} + 1 ∧
      ReachableCode start FINISHED) ∨
    (search start = .exhausted ∧ ¬ ReachableCode start FINISHED) := by
  obtain ⟨f0, hf0⟩ : ∃ v, start.distance FINISHED = some v :=
    ⟨_, distance_eq_sum hstart wf_FINISHED⟩
  have hsearch : search start = loop FUEL [State.mk start [start] 0 f0] [] := by
    rw [search, hf0]
  rw [hsearch]
  refine loop_master start hstart FUEL _ _ ?_ ?_
  · refine ⟨?_, ?_, ?_, ?_, ?_, ?_, ?_, ?_, ?_, ?_, ?_⟩
    · intro s hs
      obtain rfl : s = State.mk start [start] 0 f0 := by simpa using hs
      exact hstart
    · intro s hs
      obtain rfl : s = State.mk start [start] 0 f0 := by simpa using hs
      exact ⟨rfl, rfl, List.chain'_singleton start⟩
    · intro s hs
      obtain rfl : s = State.mk start [start] 0 f0 := by simpa using hs
      simp
    · intro s hs
      obtain rfl : s = State.mk start [start] 0 f0 := by simpa using hs
      exact ⟨f0, hf0, by simp⟩
    · intro s hs
      obtain rfl : s = State.mk start [start] 0 f0 := by simpa using hs
      exact cellsIn_self start
    · exact List.nodup_nil
    · intro v hv
      exact absurd hv (List.not_mem_nil v)
    · intro v hv
      exact absurd hv (List.not_mem_nil v)
    · exact List.not_mem_nil FINISHED
    · intro u hu
      exact absurd hu (List.not_mem_nil u)
    · intro _
      exact ⟨State.mk start [start] 0 f0, List.mem_cons_self _ _, rfl, rfl⟩
  · show 1 + 5 * (9 ^ 9 - 0) < FUEL
    norm_num [FUEL]

/-- A `Step`-chain of well-formed boards is a `LegalMove`-chain. -/
theorem chain'_step_imp_legal :
    ∀ {p : List Board} {a : Board}, WellFormed a → p.head? = some a →
      p.Chain' Step → p.Chain' LegalMove := by
  intro p
  induction p with
  | nil => intro a _ _ _; exact List.chain'_nil
  | cons x rest ih =>
    intro a ha hh hc
    obtain rfl : a = x := by simpa using hh.symm
    cases rest with
    | nil => exact List.chain'_singleton _
    | cons y ys =>
      obtain ⟨hxy, hrest⟩ := List.chain'_cons.mp hc
      exact List.chain'_cons.mpr
        ⟨(step_iff_legalMove ha).mp hxy, ih (ha.step hxy) rfl hrest⟩

/-! ## Claim theorems: the search engine -/

/-- Claim C1: from every well-formed board from which the goal is reachable
by legal moves, `search` returns `Some(path)` whose length is the true
minimum legal-move count plus one (A* optimality). -/
theorem c1_search_optimal (b : Board) (hb : WellFormed b)
    (hr : ReachableLegal b FINISHED) :
    ∃ p, search b = SearchResult.found p ∧
      p.length = sInf {k | MoveN k b FINISHED} + 1 := by
  have hrc : ReachableCode b FINISHED := (reachable_code_iff_legal hb).mpr hr
  rcases search_found_or_exhausted b hb with ⟨p, hp, -, -, -, hlen, -⟩ | ⟨-, hnr⟩
  · exact ⟨p, hp, by rw [hlen, stepN_sInf_eq_moveN_sInf hb]⟩
  · exact absurd hrc hnr

theorem c1_witness :
    WellFormed oneMoveBoard ∧ ReachableLegal oneMoveBoard FINISHED ∧
    ∃ p, search oneMoveBoard = SearchResult.found p ∧
      p.length = sInf {k | MoveN k oneMoveBoard FINISHED} + 1 := by
  have hr : ReachableLegal oneMoveBoard FINISHED := ⟨1, FINISHED, by decide, rfl⟩
  exact ⟨by decide, hr, c1_search_optimal oneMoveBoard (by decide) hr⟩

/-- Claim C2: every path returned by `search` on a well-formed board is
non-empty, starts at the start board, ends at the goal board, advances by
one legal move per consecutive pair, and has length equal to the number of
moves taken plus one. -/
theorem c2_found_path_valid (b : Board) (hb : WellFormed b) (p : List Board)
    (hp : search b = SearchResult.found p) :
    p ≠ [] ∧ p.head? = some b ∧ p.getLast? = some FINISHED ∧
    p.Chain' LegalMove ∧ ∃ k : ℕ, MoveN k b FINISHED ∧ p.length = k + 1 := by
  rcases search_found_or_exhausted b hb with ⟨p', hp', hh, hl, hc, hlen, -⟩ | ⟨hex, -⟩
  · have hpe : p' = p := by
      have h2 := hp'.symm.trans hp
      injection h2
    rw [hpe] at hh hl hc hlen
    have hne : p ≠ [] := by
      intro h
      rw [h] at hh
      exact absurd hh (by simp)
    refine ⟨hne, hh, hl, chain'_step_imp_legal hb hh hc, p.length - 1, ?_, ?_⟩
    · exact (moveN_iff_stepN hb).mpr (chain'_relN hc hh hl)
    · have : 1 ≤ p.length := by
        cases p with
        | nil => exact absurd rfl hne
        | cons x xs => simp
      omega
  · rw [hp] at hex
    exact absurd hex (by simp)

theorem c2_witness :
    WellFormed oneMoveBoard ∧
    search oneMoveBoard = SearchResult.found [oneMoveBoard, FINISHED] ∧
    ([oneMoveBoard, FINISHED] ≠ [] ∧
     [oneMoveBoard, FINISHED].head? = some oneMoveBoard ∧
     [oneMoveBoard, FINISHED].getLast? = some FINISHED ∧
     ([oneMoveBoard, FINISHED] : List Board).Chain' LegalMove ∧
     ∃ k : ℕ, MoveN k oneMoveBoard FINISHED ∧
       ([oneMoveBoard, FINISHED] : List Board).length = k + 1) := by
  have h1 : oneMoveBoard.copy_and_swap (1, 2) (2, 2) = FINISHED := by decide
  have h2 : search oneMoveBoard
      = SearchResult.found [oneMoveBoard, oneMoveBoard.copy_and_swap (1, 2) (2, 2)] := by
    decide
  rw [h1] at h2
  exact ⟨by decide, h2, c2_found_path_valid oneMoveBoard (by decide) _ h2⟩

/-- Claim C3: on every well-formed starting board the search terminates —
it returns `Some(path)` (and the goal is then reachable), or exhausts the
frontier and returns `None` exactly when the goal is unreachable; the
fueled model never reaches the fuel bound, so the Rust loop cannot run
forever. -/
theorem c3_search_terminates (b : Board) (hb : WellFormed b) :
    ((∃ p, search b = SearchResult.found p) ∧ ReachableLegal b FINISHED) ∨
    (search b = SearchResult.exhausted ∧ ¬ ReachableLegal b FINISHED) := by
  rcases search_found_or_exhausted b hb with ⟨p, hp, -, -, -, -, hreach⟩ | ⟨hex, hnr⟩
  · exact Or.inl ⟨⟨p, hp⟩, (reachable_code_iff_legal hb).mp hreach⟩
  · exact Or.inr ⟨hex, fun hl => hnr ((reachable_code_iff_legal hb).mpr hl)⟩

theorem c3_witness :
    WellFormed oneMoveBoard ∧
    (((∃ p, search oneMoveBoard = SearchResult.found p) ∧
        ReachableLegal oneMoveBoard FINISHED) ∨
     (search oneMoveBoard = SearchResult.exhausted ∧
        ¬ ReachableLegal oneMoveBoard FINISHED)) :=
  ⟨by decide, c3_search_terminates oneMoveBoard (by decide)⟩

theorem c6_witness :
    (∀ t ∈ [State.mk FINISHED [FINISHED] 0 0], WellFormed t.board) ∧
    popMax [State.mk FINISHED [FINISHED] 0 0]
      = some (State.mk FINISHED [FINISHED] 0 0, []) ∧
    ((State.mk FINISHED [FINISHED] 0 0 :: []).Perm
        [State.mk FINISHED [FINISHED] 0 0] ∧
     ∀ t ∈ [State.mk FINISHED [FINISHED] 0 0],
       (State.mk FINISHED [FINISHED] 0 0).f ≤ t.f ∧
       ((State.mk FINISHED [FINISHED] 0 0).f = t.f →
         ∃ hs ht : Int,
           (State.mk FINISHED [FINISHED] 0 0).board.distance FINISHED = some hs ∧
           t.board.distance FINISHED = some ht ∧ hs ≤ ht)) := by
  have hwf : ∀ t ∈ [State.mk FINISHED [FINISHED] 0 0], WellFormed t.board := by
    intro t ht
    obtain rfl : t = State.mk FINISHED [FINISHED] 0 0 := by simpa using ht
    exact wf_FINISHED
  have hpop : popMax [State.mk FINISHED [FINISHED] 0 0]
      = some (State.mk FINISHED [FINISHED] 0 0, []) := rfl
  exact ⟨hwf, hpop, c6_pop_min_priority _ _ _ hwf hpop⟩

end EightPuzzle
